import Mathlib

/-!
Verification of the car-data dashboard cleaning / classification / chart
pipeline.  The tabular data model and the operations below are a shallow
embedding of the pipeline shared by the two front-ends:

* `preprocess_data` embeds `preprocess_data` from `dash_app.py`
  (drop_duplicates, dropna, then a sequential per-numeric-column quantile
  filter with inclusive bounds);
* `streamlitClean` embeds the module-level auto-clean block of
  `streamlit_app.py` (same steps, the filter written with `between`);
* `select_dtypes` / `classify` embed the dtype-based column classification
  used by both front-ends;
* `update_graph` embeds the chart-dispatch callback of `dash_app.py`.

Machine floats are modelled by exact rationals; pandas `NaN` cells by an
explicit `missing` constructor.  `Series.quantile` is embedded with the
pandas default linear interpolation, returning `none` on an empty series
(pandas returns `NaN` there; every comparison against `NaN` is `False`,
which the trimming step reflects by keeping no rows when a bound is
`none`).
-/

/-- A pandas dtype as it can occur for a column of an uploaded CSV in this
pipeline.  Both front-ends call `select_dtypes` naming exactly
`float64`/`int64` (numeric) and `object`/`category` (categorical). -/
inductive Dtype
  | float64
  | int64
  | object
  | category
  deriving DecidableEq

/-- One cell of a table: a numeric value, a text value, or a missing value
(pandas `NaN`). -/
inductive Cell
  | num (v : ℚ)
  | str (s : String)
  | missing
  deriving DecidableEq

/-- Numeric view of a cell; `none` for text and missing cells (pandas
quantile skips `NaN`, and comparisons against non-numbers are `False`). -/
def Cell.toNum : Cell → Option ℚ
  | .num v => some v
  | _ => none

/-- True exactly on numeric cells. -/
def Cell.isNum : Cell → Bool
  | .num _ => true
  | _ => false

/-- A row is the list of its cells, in column order. -/
abbrev Row := List Cell

/-- A DataFrame: named, dtyped columns in order, plus the rows. -/
structure Table where
  cols : List (String × Dtype)
  rows : List Row
  deriving DecidableEq

/-- Well-formedness of a table: column names are unique, every row has one
cell per column, and a cell below a numeric dtype is a number or missing. -/
def WellFormed (t : Table) : Prop :=
  (t.cols.map Prod.fst).Nodup ∧
    ∀ r ∈ t.rows, r.length = t.cols.length ∧
      ∀ i < t.cols.length,
        (t.cols.getD i ("", Dtype.object)).2 ∈ [Dtype.float64, Dtype.int64] →
          (r.getD i Cell.missing).isNum = true ∨ r.getD i Cell.missing = Cell.missing

instance (t : Table) : Decidable (WellFormed t) := by
  unfold WellFormed; infer_instance

/-- Embedding of `df.drop_duplicates()` on the row list: scan in order,
keep a row only if it has not been seen before (pandas keeps the first
occurrence and treats `NaN` cells as equal, as `Cell.missing = Cell.missing`
does here). -/
def dedupRows (seen : List Row) : List Row → List Row
  | [] => []
  | r :: rs => if r ∈ seen then dedupRows seen rs else r :: dedupRows (r :: seen) rs

/-- Embedding of `df.dropna()`: keep only the rows with no missing cell. -/
def dropnaRows (rs : List Row) : List Row :=
  rs.filter fun r => decide (Cell.missing ∉ r)

/-- Embedding of `Series.quantile q` with the pandas default linear
interpolation over the sorted values: at rank `h = (n-1)*q`, interpolate
between the values at positions `⌊h⌋` and `⌊h⌋+1`.  Yields `none` on an
empty series (pandas: `NaN`). -/
def quantile (xs : List ℚ) (q : ℚ) : Option ℚ :=
  match List.insertionSort (· ≤ ·) xs with
  | [] => none
  | s =>
    let h : ℚ := ((s.length : ℚ) - 1) * q
    let i : ℕ := h.floor.toNat
    let lo := s.getD i 0
    let hi := s.getD (i + 1) lo
    some (lo + (h - (h.floor : ℚ)) * (hi - lo))

/-- The numeric values appearing in column `i` of the given rows
(pandas `df[col]` with `NaN`/text skipped for quantile purposes). -/
def colVals (rs : List Row) (i : ℕ) : List ℚ :=
  rs.filterMap fun r => (r.getD i Cell.missing).toNum

/-- One iteration of the dash trimming loop on column `i`:
`df_cleaned = df_cleaned[(df_cleaned[col] >= q_low) & (df_cleaned[col] <= q_high)]`.
When a bound is `NaN` (empty column) every comparison is `False`, so no row
survives. -/
def trimCol (rs : List Row) (i : ℕ) : List Row :=
  match quantile (colVals rs i) (1 / 100), quantile (colVals rs i) (99 / 100) with
  | some lo, some hi =>
      rs.filter fun r =>
        match (r.getD i Cell.missing).toNum with
        | some v => decide (lo ≤ v ∧ v ≤ hi)
        | none => false
  | _, _ => []

/-- Indices (in column order) of the columns that
`select_dtypes(include=["float64","int64"])` selects. -/
def numericIdxs (t : Table) : List ℕ :=
  (List.range t.cols.length).filter fun i =>
    decide ((t.cols.getD i ("", Dtype.object)).2 ∈ [Dtype.float64, Dtype.int64])

/-- Embedding of `preprocess_data` from `dash_app.py`: copy,
`drop_duplicates()`, `dropna()`, then for each numeric column in order
filter to the inclusive `[quantile 0.01, quantile 0.99]` band, the bounds
recomputed on the current (already shrunk) table. -/
def preprocess_data (t : Table) : Table :=
  { cols := t.cols
    rows := (numericIdxs t).foldl trimCol (dropnaRows (dedupRows [] t.rows)) }

/-- Embedding of `Series.between(lo, hi)` with the default
`inclusive="both"`. -/
def between (v lo hi : ℚ) : Bool :=
  decide (lo ≤ v ∧ v ≤ hi)

/-- One iteration of the streamlit trimming loop on column `i`:
`processed_df = processed_df[processed_df[col].between(q01, q99)]`. -/
def trimColSt (rs : List Row) (i : ℕ) : List Row :=
  match quantile (colVals rs i) (1 / 100), quantile (colVals rs i) (99 / 100) with
  | some lo, some hi =>
      rs.filter fun r =>
        match (r.getD i Cell.missing).toNum with
        | some v => between v lo hi
        | none => false
  | _, _ => []

/-- The module-level auto-clean block of `streamlit_app.py` (lines 35-48):
copy, `drop_duplicates()`, `dropna()`, then the `between`-style quantile
filter per numeric column. -/
def streamlitClean (t : Table) : Table :=
  { cols := t.cols
    rows := (numericIdxs t).foldl trimColSt (dropnaRows (dedupRows [] t.rows)) }

/-- The spec-level name for the cleaning engine; both front-ends implement
it, and the dash `preprocess_data` is taken as the reference. -/
def clean (t : Table) : Table :=
  preprocess_data t

/-- Embedding of `df.select_dtypes(include=incl).columns`: the names, in
column order, of the columns whose dtype belongs to `incl`. -/
def select_dtypes (t : Table) (incl : List Dtype) : List String :=
  t.cols.filterMap fun c => if c.2 ∈ incl then some c.1 else none

/-- The column classification both front-ends perform:
`select_dtypes(["float64","int64"])` and `select_dtypes(["object","category"])`. -/
def classify (t : Table) : List String × List String :=
  (select_dtypes t [Dtype.float64, Dtype.int64],
   select_dtypes t [Dtype.object, Dtype.category])

/-- A resolved plotly-express figure: the constructor arguments that
`update_graph` passes to `px.bar` / `px.box` / `px.scatter` / `px.pie`
(the constant dark-theme layout applied afterwards is omitted, as it does
not depend on any input). -/
inductive Figure
  | bar (data : Table) (x : String) (y : Option String) (color : String) (title : String)
  | box (data : Table) (x : String) (y : Option String) (color : String) (title : String)
  | scatter (data : Table) (x : String) (y : Option String) (color : String) (title : String)
  | pie (data : Table) (names : String) (title : String)
  deriving DecidableEq

/-- What the `graph-display` callback returns: a prompt paragraph, a graph,
or a crash (an unmatched chart type leaves `fig` unbound, a `NameError`). -/
inductive GraphOutput
  | placeholder (text : String)
  | graph (fig : Figure)
  | error
  deriving DecidableEq

/-- True exactly on the prompt-paragraph output. -/
def GraphOutput.isPlaceholder : GraphOutput → Bool
  | .placeholder _ => true
  | _ => false

/-- Python string interpolation of an optional selection: `None` prints as
the string `None` inside an f-string. -/
def optName : Option String → String
  | none => "None"
  | some s => s

/-- The `update_graph` callback of `dash_app.py` (lines 235-250), with the
upload contents modelled as the already-parsed table.  Placeholder when the
contents or the x selection is missing; otherwise clean and dispatch on the
chart-type string, building the px figure arguments. -/
def update_graph (contents : Option Table) (x_col y_col : Option String)
    (chart_type : String) : GraphOutput :=
  match contents, x_col with
  | some df, some x =>
      let dfc := preprocess_data df
      if chart_type = "bar" then
        .graph (.bar dfc x y_col x (optName y_col ++ " by " ++ x))
      else if chart_type = "box" then
        .graph (.box dfc x y_col x ("Distribution of " ++ optName y_col ++ " by " ++ x))
      else if chart_type = "scatter" then
        .graph (.scatter dfc x y_col x (optName y_col ++ " vs " ++ x))
      else if chart_type = "pie" then
        .graph (.pie dfc x ("Distribution of " ++ x))
      else .error
  | _, _ => .placeholder "📊 Upload data and select fields to generate charts."

/-- True on a row with no missing cell. -/
def rowComplete (r : Row) : Bool :=
  decide (Cell.missing ∉ r)

/-! ### Basic lemmas about the cleaning steps -/

theorem dedupRows_sublist : ∀ (rs seen : List Row), (dedupRows seen rs).Sublist rs := by
  intro rs
  induction rs with
  | nil => intro seen; simp [dedupRows]
  | cons r rs ih =>
    intro seen
    simp only [dedupRows]
    split
    · exact (ih seen).cons r
    · exact (ih (r :: seen)).cons₂ r

theorem mem_dedupRows_not_seen :
    ∀ (rs seen : List Row) (r : Row), r ∈ dedupRows seen rs → r ∉ seen := by
  intro rs
  induction rs with
  | nil => intro seen r h; simp [dedupRows] at h
  | cons a rs ih =>
    intro seen r h
    simp only [dedupRows] at h
    split at h
    · exact ih seen r h
    · rcases List.mem_cons.mp h with rfl | h2
      · assumption
      · intro hs
        exact ih (a :: seen) r h2 (List.mem_cons_of_mem a hs)

theorem dedupRows_nodup : ∀ (rs seen : List Row), (dedupRows seen rs).Nodup := by
  intro rs
  induction rs with
  | nil => intro seen; simp [dedupRows]
  | cons r rs ih =>
    intro seen
    simp only [dedupRows]
    split
    · exact ih seen
    · refine List.nodup_cons.mpr ⟨fun hmem => ?_, ih (r :: seen)⟩
      exact mem_dedupRows_not_seen rs (r :: seen) r hmem (List.mem_cons_self r seen)

theorem dropnaRows_sublist (rs : List Row) : (dropnaRows rs).Sublist rs :=
  List.filter_sublist rs

theorem mem_dropnaRows {rs : List Row} {r : Row} (h : r ∈ dropnaRows rs) :
    r ∈ rs ∧ Cell.missing ∉ r := by
  rcases List.mem_filter.mp h with ⟨h1, h2⟩
  exact ⟨h1, of_decide_eq_true h2⟩

theorem trimCol_sublist (rs : List Row) (i : ℕ) : (trimCol rs i).Sublist rs := by
  unfold trimCol
  split
  · exact List.filter_sublist rs
  · exact List.nil_sublist rs

theorem foldl_trimCol_sublist :
    ∀ (is : List ℕ) (rs : List Row), (is.foldl trimCol rs).Sublist rs := by
  intro is
  induction is with
  | nil => intro rs; simp
  | cons i is ih =>
    intro rs
    simp only [List.foldl_cons]
    exact (ih (trimCol rs i)).trans (trimCol_sublist rs i)

theorem quantile_nil (q : ℚ) : quantile [] q = none := rfl

theorem insertionSort_eq_nil {xs : List ℚ}
    (heq : List.insertionSort (· ≤ ·) xs = []) : xs = [] := by
  have hp := List.perm_insertionSort (· ≤ ·) xs
  rw [heq] at hp
  exact hp.symm.eq_nil

theorem quantile_isSome {xs : List ℚ} (h : xs ≠ []) (q : ℚ) :
    (quantile xs q).isSome = true := by
  unfold quantile
  split
  · rename_i heq
    exact absurd (insertionSort_eq_nil heq) h
  · rfl

theorem mem_trimCol {rs : List Row} {i : ℕ} {r : Row} (h : r ∈ trimCol rs i) :
    r ∈ rs ∧ ∃ lo hi v, quantile (colVals rs i) (1 / 100) = some lo ∧
      quantile (colVals rs i) (99 / 100) = some hi ∧
      (r.getD i Cell.missing).toNum = some v ∧ lo ≤ v ∧ v ≤ hi := by
  unfold trimCol at h
  split at h
  · rename_i lo hi hq1 hq2
    rcases List.mem_filter.mp h with ⟨hmem, hp⟩
    refine ⟨hmem, lo, hi, ?_⟩
    revert hp
    split
    · rename_i v hv
      intro hp
      rcases of_decide_eq_true hp with ⟨h1, h2⟩
      exact ⟨v, hq1, hq2, hv, h1, h2⟩
    · intro hp
      exact absurd hp (by simp)
  · exact absurd h (List.not_mem_nil r)

theorem trimCol_nil (i : ℕ) : trimCol [] i = [] := rfl

theorem foldl_trimCol_nil : ∀ is : List ℕ, List.foldl trimCol [] is = [] := by
  intro is
  induction is with
  | nil => rfl
  | cons i is ih => simpa [trimCol_nil] using ih

/-! ### C4, C5: invariants and safety of the cleaning engine -/

/-- C4: in the output of clean, no two distinct rows (by index) have equal
cell values in all columns (the row list is duplicate-free), and every row
satisfies rowComplete, i.e. contains no missing cell in any column. -/
theorem clean_output_nodup_and_complete (t : Table) :
    (clean t).rows.Nodup ∧ (clean t).rows.all rowComplete = true := by
  have hsub : ((clean t).rows).Sublist (dropnaRows (dedupRows [] t.rows)) :=
    foldl_trimCol_sublist (numericIdxs t) _
  constructor
  · exact List.Nodup.sublist (hsub.trans (dropnaRows_sublist _))
      (dedupRows_nodup t.rows [])
  · rw [List.all_eq_true]
    intro r hr
    exact decide_eq_true (mem_dropnaRows (hsub.subset hr)).2

/-- C5: the cleaning engine is total, and on a table with zero rows it
returns the zero-row table with the same columns; the percentile of an
empty numeric column is none (no bound), and trimming an empty row set
leaves it empty rather than failing. -/
theorem clean_empty_table_safe (t : Table) (h : t.rows = []) :
    clean t = { cols := t.cols, rows := [] } ∧
      quantile [] (1 / 100) = none ∧ quantile [] (99 / 100) = none ∧
      ∀ i : ℕ, trimCol [] i = [] := by
  refine ⟨?_, rfl, rfl, fun i => rfl⟩
  simp only [clean, preprocess_data, h, dedupRows, dropnaRows, List.filter_nil]
  rw [foldl_trimCol_nil]

def w5t : Table :=
  { cols := [("brand", Dtype.object), ("price", Dtype.float64)], rows := [] }

/-- Witness for C5 at a concrete empty two-column table. -/
theorem clean_empty_table_safe_witness :
    w5t.rows = [] ∧
      (clean w5t = { cols := w5t.cols, rows := [] } ∧
        quantile [] (1 / 100) = none ∧ quantile [] (99 / 100) = none ∧
        ∀ i : ℕ, trimCol [] i = []) :=
  ⟨rfl, clean_empty_table_safe w5t rfl⟩

/-! ### C8: clean is not strictly idempotent -/

def c8t : Table :=
  { cols := [("name", Dtype.object), ("price", Dtype.float64)]
    rows := [[Cell.str "a", Cell.num 0], [Cell.str "b", Cell.num 0],
             [Cell.str "c", Cell.num 1], [Cell.str "d", Cell.num 2]] }

/-- C8: clean is not strictly idempotent — there is a table free of
duplicate rows and of missing values on which a second clean pass removes
additional rows, the quantile bounds being recomputed on the smaller row
set of the second pass. -/
theorem clean_not_strictly_idempotent :
    ∃ t : Table, t.rows.Nodup ∧ t.rows.all rowComplete = true ∧
      (clean (clean t)).rows.length < (clean t).rows.length ∧
      clean (clean t) ≠ clean t :=
  ⟨c8t, by with_unfolding_all decide⟩

/-! ### C9: the two front-end cleaning implementations agree -/

theorem trimCol_eq_trimColSt : trimCol = trimColSt := by
  funext rs i
  unfold trimCol trimColSt between
  rfl

/-- C9: the dash preprocess_data and the streamlit inline cleaning block
compute the same function on every input table. -/
theorem dash_streamlit_clean_agree (t : Table) :
    preprocess_data t = streamlitClean t := by
  unfold preprocess_data streamlitClean
  rw [trimCol_eq_trimColSt]

/-! ### C10: pie output does not depend on the y selection -/

/-- C10: for the pie chart kind, the output of update_graph is independent
of the y-axis selection — two calls differing only in y_col produce the
same figure. -/
theorem pie_output_independent_of_y (contents : Option Table) (x : String)
    (y y' : Option String) :
    update_graph contents (some x) y "pie" = update_graph contents (some x) y' "pie" := by
  cases contents <;> rfl

/-! ### C2: quantile bound invariant -/

/-- The row set of the table as it stands when the trimming loop reaches a
given column: after duplicate removal, missing-value removal, and trimming
of the numeric columns listed in pre. -/
def trimState (t : Table) (pre : List ℕ) : List Row :=
  pre.foldl trimCol (dropnaRows (dedupRows [] t.rows))

/-- C2: for a numeric column i of the cleaned output (the trimming order
decomposes as pre ++ i :: post), every row of the output carries a numeric
value in column i lying within the inclusive 1st/99th-percentile bounds
computed over the table state at the moment column i was trimmed. -/
theorem cleaned_values_within_quantile_bounds (t : Table) (pre : List ℕ) (i : ℕ)
    (post : List ℕ) (hsplit : numericIdxs t = pre ++ i :: post)
    (r : Row) (hr : r ∈ (clean t).rows) :
    ∃ lo hi v, quantile (colVals (trimState t pre) i) (1 / 100) = some lo ∧
      quantile (colVals (trimState t pre) i) (99 / 100) = some hi ∧
      (r.getD i Cell.missing).toNum = some v ∧ lo ≤ v ∧ v ≤ hi := by
  have h1 : (clean t).rows = post.foldl trimCol (trimCol (trimState t pre) i) := by
    simp only [clean, preprocess_data, hsplit, trimState, List.foldl_append,
      List.foldl_cons]
  rw [h1] at hr
  exact (mem_trimCol ((foldl_trimCol_sublist post _).subset hr)).2

def w2t : Table :=
  { cols := [("name", Dtype.object), ("price", Dtype.float64)]
    rows := [[Cell.str "a", Cell.num 0], [Cell.str "b", Cell.num 0],
             [Cell.str "c", Cell.num 1], [Cell.str "d", Cell.num 2]] }

/-- Witness for C2 at a concrete table whose only numeric column is 1. -/
theorem cleaned_values_within_quantile_bounds_witness :
    numericIdxs w2t = [] ++ 1 :: [] ∧
      [Cell.str "a", Cell.num 0] ∈ (clean w2t).rows ∧
      (∃ lo hi v, quantile (colVals (trimState w2t []) 1) (1 / 100) = some lo ∧
        quantile (colVals (trimState w2t []) 1) (99 / 100) = some hi ∧
        (([Cell.str "a", Cell.num 0] : Row).getD 1 Cell.missing).toNum = some v ∧
        lo ≤ v ∧ v ≤ hi) :=
  ⟨rfl, by with_unfolding_all decide,
    cleaned_values_within_quantile_bounds w2t [] 1 [] rfl _
      (by with_unfolding_all decide)⟩

/-! ### C3: classification partitions the columns -/

theorem mem_select_dtypes {t : Table} {incl : List Dtype} {n : String} :
    n ∈ select_dtypes t incl ↔ ∃ d, (n, d) ∈ t.cols ∧ d ∈ incl := by
  simp only [select_dtypes, List.mem_filterMap]
  constructor
  · rintro ⟨⟨m, d⟩, hmem, hif⟩
    dsimp only at hif
    by_cases hd : d ∈ incl
    · rw [if_pos hd] at hif
      exact ⟨d, (Option.some.inj hif) ▸ hmem, hd⟩
    · rw [if_neg hd] at hif
      exact absurd hif (by simp)
  · rintro ⟨d, hmem, hd⟩
    exact ⟨(n, d), hmem, by simp [hd]⟩

theorem nodup_keys_unique :
    ∀ (l : List (String × Dtype)), (l.map Prod.fst).Nodup →
      ∀ {n : String} {d₁ d₂ : Dtype}, (n, d₁) ∈ l → (n, d₂) ∈ l → d₁ = d₂ := by
  intro l
  induction l with
  | nil => intro _ n d₁ d₂ h; simp at h
  | cons c l ih =>
    intro hnd n d₁ d₂ h1 h2
    rw [List.map_cons, List.nodup_cons] at hnd
    rcases List.mem_cons.mp h1 with rfl | h1t
    · rcases List.mem_cons.mp h2 with h2h | h2t
      · exact congrArg Prod.snd h2h.symm
      · exact absurd (List.mem_map_of_mem Prod.fst h2t) hnd.1
    · rcases List.mem_cons.mp h2 with rfl | h2t
      · exact absurd (List.mem_map_of_mem Prod.fst h1t) hnd.1
      · exact ih hnd.2 h1t h2t

/-- C3: for every table with unique column names, classify returns
disjoint numeric/categorical name sets whose union is the full column set,
each column getting the Numeric role exactly when its stored dtype is
numeric and the Categorical role otherwise. -/
theorem classify_partitions_columns (t : Table)
    (h : (t.cols.map Prod.fst).Nodup) :
    (∀ n : String, ¬(n ∈ (classify t).1 ∧ n ∈ (classify t).2)) ∧
      (∀ n : String, (n ∈ (classify t).1 ∨ n ∈ (classify t).2) ↔
        n ∈ t.cols.map Prod.fst) ∧
      ∀ c ∈ t.cols, (c.2 ∈ [Dtype.float64, Dtype.int64] → c.1 ∈ (classify t).1) ∧
        (c.2 ∉ [Dtype.float64, Dtype.int64] → c.1 ∈ (classify t).2) := by
  refine ⟨?_, ?_, ?_⟩
  · rintro n ⟨hn1, hn2⟩
    rcases mem_select_dtypes.mp hn1 with ⟨d₁, hm1, hd1⟩
    rcases mem_select_dtypes.mp hn2 with ⟨d₂, hm2, hd2⟩
    have hdd := nodup_keys_unique t.cols h hm1 hm2
    subst hdd
    cases d₁ <;> simp_all
  · intro n
    constructor
    · rintro (hn | hn)
      · rcases mem_select_dtypes.mp hn with ⟨d, hm, _⟩
        exact List.mem_map.mpr ⟨(n, d), hm, rfl⟩
      · rcases mem_select_dtypes.mp hn with ⟨d, hm, _⟩
        exact List.mem_map.mpr ⟨(n, d), hm, rfl⟩
    · intro hn
      rcases List.mem_map.mp hn with ⟨⟨m, d⟩, hm, hfst⟩
      cases hfst
      cases d
      · exact Or.inl (mem_select_dtypes.mpr ⟨Dtype.float64, hm, by simp⟩)
      · exact Or.inl (mem_select_dtypes.mpr ⟨Dtype.int64, hm, by simp⟩)
      · exact Or.inr (mem_select_dtypes.mpr ⟨Dtype.object, hm, by simp⟩)
      · exact Or.inr (mem_select_dtypes.mpr ⟨Dtype.category, hm, by simp⟩)
  · rintro ⟨n, d⟩ hc
    constructor
    · intro hd
      exact mem_select_dtypes.mpr ⟨d, hc, hd⟩
    · intro hd
      cases d <;> simp_all <;>
        [exact mem_select_dtypes.mpr ⟨Dtype.object, hc, by simp⟩;
         exact mem_select_dtypes.mpr ⟨Dtype.category, hc, by simp⟩]

def w3t : Table :=
  { cols := [("brand", Dtype.object), ("price", Dtype.float64)]
    rows := [[Cell.str "Toyota", Cell.num 20000]] }

/-- Witness for C3 at a concrete two-column table. -/
theorem classify_partitions_columns_witness :
    (w3t.cols.map Prod.fst).Nodup ∧
      ((∀ n : String, ¬(n ∈ (classify w3t).1 ∧ n ∈ (classify w3t).2)) ∧
        (∀ n : String, (n ∈ (classify w3t).1 ∨ n ∈ (classify w3t).2) ↔
          n ∈ w3t.cols.map Prod.fst) ∧
        ∀ c ∈ w3t.cols, (c.2 ∈ [Dtype.float64, Dtype.int64] → c.1 ∈ (classify w3t).1) ∧
          (c.2 ∉ [Dtype.float64, Dtype.int64] → c.1 ∈ (classify w3t).2)) :=
  ⟨by decide, classify_partitions_columns w3t (by decide)⟩

/-! ### C1: clean is exactly the three spec steps in order -/

/-- Step 1 in the words of the spec: remove every row that exactly
duplicates a row with a lower original index, keeping the first
occurrence. -/
def removeDupIndexed (rs : List Row) : List Row :=
  (List.range rs.length).filterMap fun i =>
    if rs.getD i [] ∈ rs.take i then none else some (rs.getD i [])

/-- Step 2 in the words of the spec: remove every row containing a missing
cell in any column. -/
def removeIncomplete (rs : List Row) : List Row :=
  rs.filter fun r => decide (∀ c ∈ r, c ≠ Cell.missing)

/-- Step 3 in the words of the spec: remove every row whose value in
column i lies strictly outside the inclusive band given by the 1st and
99th percentile of the column over the current state; an empty column has
no bound and trims nothing. -/
def trimOutliers (rs : List Row) (i : ℕ) : List Row :=
  match quantile (colVals rs i) (1 / 100), quantile (colVals rs i) (99 / 100) with
  | some lo, some hi =>
      rs.filter fun r =>
        match (r.getD i Cell.missing).toNum with
        | some v => decide (¬(v < lo ∨ hi < v))
        | none => true
  | _, _ => rs

/-- The three-step pipeline exactly as the spec describes it: duplicate
removal, then missing-value removal, then sequential cumulative outlier
trimming over the numeric columns in column order. -/
def cleanSpec (t : Table) : Table :=
  { cols := t.cols
    rows := (numericIdxs t).foldl trimOutliers
      (removeIncomplete (removeDupIndexed t.rows)) }

/-- Generalisation of removeDupIndexed over an accumulator of already-seen
rows, used to relate it to the scan dedupRows performs. -/
def dedupSpecAux (seen : List Row) (rs : List Row) : List Row :=
  (List.range rs.length).filterMap fun i =>
    if rs.getD i [] ∈ seen ∨ rs.getD i [] ∈ rs.take i then none
    else some (rs.getD i [])

theorem dedupSpecAux_cons (seen : List Row) (r : Row) (rs : List Row) :
    dedupSpecAux seen (r :: rs) =
      if r ∈ seen then dedupSpecAux seen rs
      else r :: dedupSpecAux (r :: seen) rs := by
  unfold dedupSpecAux
  rw [List.length_cons, List.range_succ_eq_map, List.filterMap_cons, List.filterMap_map]
  by_cases hmem : r ∈ seen
  · rw [if_pos hmem]
    have h0 : (if (r :: rs).getD 0 [] ∈ seen ∨ (r :: rs).getD 0 [] ∈ (r :: rs).take 0
        then none else some ((r :: rs).getD 0 [])) = (none : Option Row) := by
      simp [hmem]
    rw [h0]
    refine List.filterMap_congr fun i _ => ?_
    simp only [Function.comp_apply, List.getD_cons_succ, List.take_succ_cons]
    refine if_congr ?_ rfl rfl
    rw [List.mem_cons]
    have hr : rs.getD i [] = r → rs.getD i [] ∈ seen := fun hh => hh ▸ hmem
    tauto
  · rw [if_neg hmem]
    have h0 : (if (r :: rs).getD 0 [] ∈ seen ∨ (r :: rs).getD 0 [] ∈ (r :: rs).take 0
        then none else some ((r :: rs).getD 0 [])) = some r := by
      simp [hmem]
    rw [h0]
    refine congrArg (List.cons r) (List.filterMap_congr fun i _ => ?_)
    simp only [Function.comp_apply, List.getD_cons_succ, List.take_succ_cons]
    refine if_congr ?_ rfl rfl
    rw [List.mem_cons, List.mem_cons]
    tauto

theorem dedupRows_eq_specAux : ∀ (rs seen : List Row),
    dedupRows seen rs = dedupSpecAux seen rs := by
  intro rs
  induction rs with
  | nil => intro seen; rfl
  | cons r rs ih =>
    intro seen
    rw [dedupSpecAux_cons]
    simp only [dedupRows]
    by_cases hmem : r ∈ seen
    · rw [if_pos hmem, if_pos hmem, ih]
    · rw [if_neg hmem, if_neg hmem, ih]

theorem dedupRows_eq_removeDupIndexed (rs : List Row) :
    dedupRows [] rs = removeDupIndexed rs := by
  rw [dedupRows_eq_specAux]
  unfold dedupSpecAux removeDupIndexed
  refine List.filterMap_congr fun i _ => ?_
  simp

theorem dropnaRows_eq_removeIncomplete (rs : List Row) :
    dropnaRows rs = removeIncomplete rs := by
  unfold dropnaRows removeIncomplete
  refine List.filter_congr fun r _ => ?_
  simp only [decide_eq_decide]
  constructor
  · intro hn c hc hceq
    exact hn (hceq ▸ hc)
  · intro hall hmem
    exact hall Cell.missing hmem rfl

/-- Every row of rs carries a numeric value in every numeric column of t;
this holds after dropna on a well-formed table and is preserved by
trimming. -/
def AllNum (t : Table) (rs : List Row) : Prop :=
  ∀ r ∈ rs, ∀ i ∈ numericIdxs t, ((r.getD i Cell.missing).toNum).isSome = true

theorem AllNum.mono {t : Table} {rs rs2 : List Row} (hsub : rs2 ⊆ rs)
    (hall : AllNum t rs) : AllNum t rs2 :=
  fun r hr => hall r (hsub hr)

theorem quantile_eq_none {xs : List ℚ} {q : ℚ} (h : quantile xs q = none) :
    xs = [] := by
  by_contra hne
  have hs := quantile_isSome hne q
  rw [h] at hs
  exact absurd hs (by simp)

theorem colVals_nil_imp {t : Table} {rs : List Row} {i : ℕ} (hi : i ∈ numericIdxs t)
    (hall : AllNum t rs) (h : colVals rs i = []) : rs = [] := by
  cases rs with
  | nil => rfl
  | cons r rs =>
    have h1 := hall r (List.mem_cons_self r rs) i hi
    rcases Option.isSome_iff_exists.mp h1 with ⟨v, hv⟩
    have hvm : v ∈ colVals (r :: rs) i :=
      List.mem_filterMap.mpr ⟨r, List.mem_cons_self r rs, hv⟩
    rw [h] at hvm
    exact absurd hvm (List.not_mem_nil v)

theorem trimCol_eq_trimOutliers {t : Table} {rs : List Row} {i : ℕ}
    (hi : i ∈ numericIdxs t) (hall : AllNum t rs) :
    trimCol rs i = trimOutliers rs i := by
  unfold trimCol trimOutliers
  cases hq1 : quantile (colVals rs i) (1 / 100) with
  | none => rw [colVals_nil_imp hi hall (quantile_eq_none hq1)]
  | some lo =>
    cases hq2 : quantile (colVals rs i) (99 / 100) with
    | none => rw [colVals_nil_imp hi hall (quantile_eq_none hq2)]
    | some hi2 =>
      refine List.filter_congr fun r hr => ?_
      rcases Option.isSome_iff_exists.mp (hall r hr i hi) with ⟨v, hv⟩
      rw [hv]
      simp only [decide_eq_decide, not_or, not_lt]

theorem foldl_trim_eq {t : Table} :
    ∀ (is : List ℕ) (rs : List Row), (∀ i ∈ is, i ∈ numericIdxs t) → AllNum t rs →
      List.foldl trimCol rs is = List.foldl trimOutliers rs is := by
  intro is
  induction is with
  | nil => intros; rfl
  | cons i is ih =>
    intro rs hmem hall
    simp only [List.foldl_cons]
    rw [← trimCol_eq_trimOutliers (hmem i (List.mem_cons_self i is)) hall]
    exact ih (trimCol rs i) (fun j hj => hmem j (List.mem_cons_of_mem i hj))
      (AllNum.mono (trimCol_sublist rs i).subset hall)

theorem mem_numericIdxs {t : Table} {i : ℕ} :
    i ∈ numericIdxs t ↔ i < t.cols.length ∧
      (t.cols.getD i ("", Dtype.object)).2 ∈ [Dtype.float64, Dtype.int64] := by
  simp [numericIdxs, List.mem_filter, List.mem_range]

theorem allNum_after_dropna {t : Table} (h : WellFormed t) :
    AllNum t (dropnaRows (dedupRows [] t.rows)) := by
  intro r hr i hi
  rcases mem_dropnaRows hr with ⟨hr1, hr2⟩
  have hrt : r ∈ t.rows := (dedupRows_sublist t.rows []).subset hr1
  rcases h.2 r hrt with ⟨hlen, hcell⟩
  rcases mem_numericIdxs.mp hi with ⟨hilt, hdty⟩
  rcases hcell i hilt hdty with hnum | hmiss
  · cases hcl : r.getD i Cell.missing with
    | num v => rfl
    | str s => rw [hcl] at hnum; simp [Cell.isNum] at hnum
    | missing => rw [hcl] at hnum; simp [Cell.isNum] at hnum
  · exfalso
    apply hr2
    have hlt : i < r.length := hlen ▸ hilt
    rw [← hmiss, List.getD_eq_getElem _ _ hlt]
    exact List.getElem_mem hlt

/-- C1: on every well-formed table, clean performs exactly the three spec
steps in order: indexed duplicate removal keeping first occurrences, then
missing-value row removal, then sequential cumulative quantile trimming of
the numeric columns in column order. -/
theorem clean_applies_three_steps_in_order (t : Table) (h : WellFormed t) :
    clean t = cleanSpec t := by
  simp only [clean, preprocess_data, cleanSpec, Table.mk.injEq, true_and]
  rw [← dedupRows_eq_removeDupIndexed, ← dropnaRows_eq_removeIncomplete]
  exact foldl_trim_eq (numericIdxs t) _ (fun i hi => hi) (allNum_after_dropna h)

def w1t : Table :=
  { cols := [("brand", Dtype.object), ("price", Dtype.float64)]
    rows := [[Cell.str "Toyota", Cell.num 20000], [Cell.str "Toyota", Cell.num 20000],
             [Cell.str "Honda", Cell.missing], [Cell.str "Ford", Cell.num 999999]] }

/-- Witness for C1 at a concrete well-formed table with a duplicate row, a
missing value and a numeric outlier. -/
theorem clean_applies_three_steps_in_order_witness :
    WellFormed w1t ∧ clean w1t = cleanSpec w1t :=
  ⟨by with_unfolding_all decide,
    clean_applies_three_steps_in_order w1t (by with_unfolding_all decide)⟩

/-! ### C6: chart-configurator validation as actually implemented -/

def c6t : Table :=
  { cols := [("brand", Dtype.object), ("price", Dtype.float64)]
    rows := [[Cell.str "Toyota", Cell.num 20000]] }

/-- C6 counterexample: with the Bar kind, x present and the y selection
missing, the callback still returns a chart rather than a validation
placeholder, refuting the claim that resolve fails whenever y is missing
(or non-numeric): the code never validates y. -/
theorem update_graph_bar_missing_y_still_chart :
    update_graph (some c6t) (some "brand") none "bar" =
      .graph (.bar (preprocess_data c6t) "brand" none "brand" "None by brand") := rfl

/-- C6 (amended): for the Bar kind the callback yields the placeholder
exactly when the upload contents or the x selection is missing — the y
selection and its dtype are never validated (the UI restricts the y
options to numeric columns instead), and the placeholder is a fixed prompt
that does not name the missing field; resolve of Pie with a names column
present yields a chart with no y binding. -/
theorem update_graph_bar_validation (contents : Option Table)
    (x_col y_col : Option String) :
    ((update_graph contents x_col y_col "bar").isPlaceholder = true ↔
      (contents = none ∨ x_col = none)) ∧
      (∀ (df : Table) (n : String),
        update_graph (some df) (some n) y_col "pie" =
          .graph (.pie (preprocess_data df) n ("Distribution of " ++ n))) := by
  constructor
  · cases contents <;> cases x_col <;>
      simp [update_graph, GraphOutput.isPlaceholder]
  · intro df n
    rfl

/-! ### C7: a column of only missing values empties the rows but stays -/

def c7t : Table :=
  { cols := [("a", Dtype.object), ("b", Dtype.float64)]
    rows := [[Cell.str "x", Cell.missing]] }

/-- C7 counterexample: table c7t has a column b whose cells are all
missing; after clean that column is still present in the cleaned table
(clean never drops columns — only rows), refuting the claim that the
column is absent from the cleaned table. -/
theorem all_missing_column_still_present :
    ("b" ∈ (clean c7t).cols.map Prod.fst) ∧ (clean c7t).rows = [] := by
  with_unfolding_all decide

/-- C7 (amended): on a well-formed table with a column i whose cells are
all missing, clean removes every row (the dropna step), so the column is
never classified from a populated table — but the column itself remains
present: the cleaned table has exactly the original columns. -/
theorem all_missing_column_clears_rows (t : Table) (i : ℕ) (h : WellFormed t)
    (hi : i < t.cols.length)
    (hall : t.rows.all (fun r => r.getD i Cell.missing == Cell.missing) = true) :
    (clean t).cols = t.cols ∧ (clean t).rows = [] := by
  refine ⟨rfl, ?_⟩
  simp only [clean, preprocess_data]
  have hdrop : dropnaRows (dedupRows [] t.rows) = [] := by
    rw [dropnaRows, List.filter_eq_nil_iff]
    intro r hr
    have hrt : r ∈ t.rows := (dedupRows_sublist t.rows []).subset hr
    have hlen := (h.2 r hrt).1
    have hlt : i < r.length := hlen ▸ hi
    have hmr : r.getD i Cell.missing = Cell.missing :=
      eq_of_beq (List.all_eq_true.mp hall r hrt)
    have hm : Cell.missing ∈ r := by
      rw [← hmr, List.getD_eq_getElem _ _ hlt]
      exact List.getElem_mem hlt
    simp [hm]
  rw [hdrop, foldl_trimCol_nil]

/-- Witness for the amended C7 at the concrete counterexample table. -/
theorem all_missing_column_clears_rows_witness :
    WellFormed c7t ∧ 1 < c7t.cols.length ∧
      c7t.rows.all (fun r => r.getD 1 Cell.missing == Cell.missing) = true ∧
      ((clean c7t).cols = c7t.cols ∧ (clean c7t).rows = []) :=
  ⟨by decide, by decide, by decide,
    all_missing_column_clears_rows c7t 1 (by decide) (by decide) (by decide)⟩
